import Mathlib

/-!
Verification development for the GPR core `src/lib_gpr.c` (PyGPR).

The C code composes dense linear-algebra primitives (BLAS/LAPACK) into
Gaussian-process regression operations.  We embed each function of the file
shallowly over exact arithmetic: `double` buffers become vectors and matrices
over `ℚ` (or `ℝ` where `log` is required), read in LAPACK's column-major
convention, so the buffer entry `buf[c*ld + r]` is the matrix entry `(r, c)`.

External collaborators are modelled by their contracts:
* `dposv`/`dpotrf` factorize the symmetric matrix described by the lower
  triangle of their argument and (for `dposv`) solve the corresponding linear
  system; the numeric Cholesky factor they deposit is supplied by an explicit
  function parameter `chol`, constrained by hypotheses where a claim needs the
  factor's defining property, and the exact solution is `linSolve` below
  (Cramer's rule, which agrees with the unique solution whenever the
  determinant is nonzero).
* `fill_normal_rnd` is a deterministic function of the seed (`rnd` parameter),
  per its documented contract.
* the kernel evaluator `get_krn_se_ard` and the optimizer
  `get_hyper_param_ard` are abstract function parameters of the orchestrator.

Functions that write through pointer arguments are embedded as functions on a
record holding every buffer the C call can reach, so that frame properties
(which buffers are left unchanged) are actual theorems about the embedding.
-/

namespace LibGpr

open Matrix

/-- The jitter `eps = 1E-7` of `lib_gpr.c` (exact value of the decimal literal). -/
def eps : ℚ := 1 / 10000000

/-- Add `e` to every diagonal entry: the in-place jitter loops
`krn_chd[i*ns+i] += eps` of the source. -/
def addDiag {n : ℕ} (e : ℚ) (A : Matrix (Fin n) (Fin n) ℚ) :
    Matrix (Fin n) (Fin n) ℚ :=
  Matrix.of fun i j => if i = j then A i j + e else A i j

/-- The symmetric matrix described by the lower triangle of `A`: LAPACK
routines called with `UPLO = L` reference only entries with row ≥ col. -/
def symLower {n : ℕ} (A : Matrix (Fin n) (Fin n) ℚ) : Matrix (Fin n) (Fin n) ℚ :=
  Matrix.of fun i j => if (j : ℕ) ≤ (i : ℕ) then A i j else A j i

/-- The lower triangle of `A` (zero strictly above the diagonal), as read by
`dtrsm`/`dtrmv` with `UPLO = L`, `DIAG = N`. -/
def lowerPart {n : ℕ} (A : Matrix (Fin n) (Fin n) ℚ) : Matrix (Fin n) (Fin n) ℚ :=
  Matrix.of fun i j => if (j : ℕ) ≤ (i : ℕ) then A i j else 0

/-- Overwrite the lower triangle (diagonal included) of `A` with that of `L`,
leaving the strict upper triangle of `A` in place: the effect of
`dposv`/`dpotrf` with `UPLO = L` on their matrix argument. -/
def writeLower {n : ℕ} (A L : Matrix (Fin n) (Fin n) ℚ) : Matrix (Fin n) (Fin n) ℚ :=
  Matrix.of fun i j => if (j : ℕ) ≤ (i : ℕ) then L i j else A i j

/-- Exact solution of `A · x = b` by Cramer's rule; for `A.det ≠ 0` this is
the unique solution, which is what a successful LAPACK solve returns in exact
arithmetic. -/
def linSolve {n : ℕ} (A : Matrix (Fin n) (Fin n) ℚ) (b : Fin n → ℚ) : Fin n → ℚ :=
  (A.det)⁻¹ • A.cramer b

/-- Column-by-column `linSolve`: the multi-right-hand-side solves
(`dposv` with `NRHS = np`, `dtrsm`). -/
def linSolveMat {n m : ℕ} (A : Matrix (Fin n) (Fin n) ℚ)
    (B : Matrix (Fin n) (Fin m) ℚ) : Matrix (Fin n) (Fin m) ℚ :=
  Matrix.of fun i c => linSolve A (fun r => B r c) i

/-- Embedding of `dsyrk` with `UPLO = L`, `TRANS = T`, `alpha = -1`, `beta = 1`:
update `C(r,c) := C(r,c) - (Vᵀ·V)(r,c)` on the lower triangle (row ≥ col)
only, leaving the strict upper triangle untouched. -/
def syrkLT {n m : ℕ} (V : Matrix (Fin n) (Fin m) ℚ)
    (C : Matrix (Fin m) (Fin m) ℚ) : Matrix (Fin m) (Fin m) ℚ :=
  Matrix.of fun r c =>
    if (c : ℕ) ≤ (r : ℕ) then C r c - ∑ k, V k r * V k c else C r c

/-- The explicit mirroring loop of `get_var_mat_chd`
(`var[j*np+i] = var[i*np+j]` for `j > i`): copy the lower triangle over the
strict upper triangle. -/
def mirrorLower {m : ℕ} (A : Matrix (Fin m) (Fin m) ℚ) : Matrix (Fin m) (Fin m) ℚ :=
  Matrix.of fun r c => if (r : ℕ) < (c : ℕ) then A c r else A r c

/-- Predicate: `A` is symmetric positive definite (over the exact rationals). -/
def PosDefQ {n : ℕ} (A : Matrix (Fin n) (Fin n) ℚ) : Prop :=
  Aᵀ = A ∧ ∀ x : Fin n → ℚ, x ≠ 0 → 0 < x ⬝ᵥ (A *ᵥ x)

/-- Buffers reachable from a `get_gpr_weights(wt, krn_chd, krn, ns, dim, y)`
call: the two outputs and the two `const` inputs. -/
structure WeightsSt (ns : ℕ) where
  wt : Fin ns → ℚ
  krn_chd : Matrix (Fin ns) (Fin ns) ℚ
  krn : Matrix (Fin ns) (Fin ns) ℚ
  y : Fin ns → ℚ

/-- Embedding of `get_gpr_weights` of `lib_gpr.c`: copy `krn` into `krn_chd`, add
`eps` to its `ns` diagonal entries, copy `y` into `wt`, then `dposv` with
`UPLO = L` factorizes the symmetric matrix given by the lower triangle of the
jittered copy (depositing the factor `chol …` in the lower triangle) and
overwrites `wt` with the solution of the jittered system.  The argument `dim`
is never read by the C body. -/
def get_gpr_weights {ns : ℕ}
    (chol : Matrix (Fin ns) (Fin ns) ℚ → Matrix (Fin ns) (Fin ns) ℚ)
    (dim : ℕ) (s : WeightsSt ns) : WeightsSt ns :=
  let _ := dim
  let jit := addDiag eps s.krn
  ⟨linSolve (symLower jit) s.y,
   writeLower jit (chol (symLower jit)),
   s.krn,
   s.y⟩

open scoped Classical

/-- In exact arithmetic `dposv` succeeds (`info = 0`) exactly when the symmetric matrix described
by the lower triangle of its (jittered) argument is positive definite;
otherwise `assert(info == 0)` aborts the call.  `get_gpr_weights_run` returns
`none` on that fatal path and the completed state otherwise. -/
noncomputable def get_gpr_weights_run {ns : ℕ}
    (chol : Matrix (Fin ns) (Fin ns) ℚ → Matrix (Fin ns) (Fin ns) ℚ)
    (dim : ℕ) (s : WeightsSt ns) : Option (WeightsSt ns) :=
  if PosDefQ (symLower (addDiag eps s.krn)) then some (get_gpr_weights chol dim s)
  else none

/-- Buffers of a `gpr_predict(yp, wt, krnp, np, ns)` call. -/
structure PredictSt (np ns : ℕ) where
  yp : Fin np → ℚ
  wt : Fin ns → ℚ
  krnp : Matrix (Fin ns) (Fin np) ℚ

/-- Embedding of `gpr_predict`: `dgemv` with `TRANS = T`, `alpha = 1`, `beta = 0` on the
`ns × np` matrix `krnp`, i.e. `yp := krnpᵀ · wt` (full overwrite of `yp`). -/
def gpr_predict {np ns : ℕ} (s : PredictSt np ns) : PredictSt np ns :=
  ⟨s.krnpᵀ *ᵥ s.wt, s.wt, s.krnp⟩

/-- Buffers of a `get_var_mat(var, krnpp, krnp, krn, np, ns)` call. -/
structure VarSt (np ns : ℕ) where
  var : Matrix (Fin np) (Fin np) ℚ
  krnpp : Matrix (Fin np) (Fin np) ℚ
  krnp : Matrix (Fin ns) (Fin np) ℚ
  krn : Matrix (Fin ns) (Fin ns) ℚ

/-- Embedding of `get_var_mat` (full-solve posterior covariance): adds the jitter to the
caller's `krn` buffer in place, copies `krnp` into scratch `V`, `dposv` solves
`(krn+εI)·V = krnp` (overwriting `krn` with the factor in its lower triangle),
then `dgemm` (`TRANS = T,N`, `alpha = -1`, `beta = 1`) forms
`var := krnpp − krnpᵀ·V`.  Note `krn` does NOT hold its input value on exit. -/
def get_var_mat {np ns : ℕ}
    (chol : Matrix (Fin ns) (Fin ns) ℚ → Matrix (Fin ns) (Fin ns) ℚ)
    (s : VarSt np ns) : VarSt np ns :=
  let jit := addDiag eps s.krn
  let V := linSolveMat (symLower jit) s.krnp
  ⟨s.krnpp - s.krnpᵀ * V,
   s.krnpp,
   s.krnp,
   writeLower jit (chol (symLower jit))⟩

/-- Buffers of a `get_var_mat_chd(var, krnpp, krnp, krn_chd, np, ns)` call;
all arguments except `var` are `const` in the C prototype. -/
structure VarChdSt (np ns : ℕ) where
  var : Matrix (Fin np) (Fin np) ℚ
  krnpp : Matrix (Fin np) (Fin np) ℚ
  krnp : Matrix (Fin ns) (Fin np) ℚ
  krn_chd : Matrix (Fin ns) (Fin ns) ℚ

/-- Embedding of `get_var_mat_chd` (Cholesky-factor posterior covariance): copies `krnp`
into `V`, `dtrsm` (`SIDE = L`, `UPLO = L`, `DIAG = N`) solves
`lowerPart(krn_chd) · V = krnp`, copies `krnpp` into `var`, `dsyrk`
(`UPLO = L`, `TRANS = T`) updates the lower triangle with `−Vᵀ·V`, and the
final loop mirrors the lower triangle into the strict upper triangle. -/
def get_var_mat_chd {np ns : ℕ} (s : VarChdSt np ns) : VarChdSt np ns :=
  let V := linSolveMat (lowerPart s.krn_chd) s.krnp
  ⟨mirrorLower (syrkLT V s.krnpp),
   s.krnpp,
   s.krnp,
   s.krn_chd⟩

/-- The constant `PI (3.14159265358979)` of `lib_gpr.c` (exact value of the
decimal literal). -/
noncomputable def PI : ℝ := 3.14159265358979

/-- Embedding of `get_log_likelihood(wt, y, ns, krn_chd, ret)`: `ddot` forms
`ywt = Σ y i · wt i`, the loop forms `log_det_k = Σ 2·log(krn_chd i i)`,
the return value is `−½·ywt − ½·log_det_k − ½·ns·log(2·PI)`, and (when the
diagnostic pointer `ret` is non-null) the three entries written to `ret` are
returned as the second component.  Embedded over `ℝ` because of `log`. -/
noncomputable def get_log_likelihood {ns : ℕ} (wt y : Fin ns → ℝ)
    (krn_chd : Matrix (Fin ns) (Fin ns) ℝ) : ℝ × (Fin 3 → ℝ) :=
  let ywt := ∑ i, y i * wt i
  let log_det_k := ∑ i, 2 * Real.log (krn_chd i i)
  ⟨-0.5 * ywt - 0.5 * log_det_k - 0.5 * (ns : ℝ) * Real.log (2 * PI),
   ![-0.5 * ywt, -log_det_k, -0.5 * (ns : ℝ) * Real.log (2 * PI)]⟩

/-- Embedding of `sample_gp(y, mn, kxx, ns, seed)`: copy `kxx` into scratch `lkxx`, add
`1E-7` to its diagonal, `dpotrf` (`UPLO = L`) deposits the Cholesky factor of
the symmetric matrix given by the lower triangle (modelled by `chol`) in the
lower triangle of `lkxx`, `fill_normal_rnd(y, ns, seed)` overwrites the whole
output buffer with the seed-determined draw (modelled by `rnd`), `dtrmv`
(`UPLO = L`, `TRANS = N`, `DIAG = N`) forms `y := lowerPart(lkxx) · y`, and
the mean is added elementwise when the pointer `mn` is non-null.  `y0` is the
prior content of the caller's output buffer (never read by the C body). -/
def sample_gp {ns : ℕ}
    (chol : Matrix (Fin ns) (Fin ns) ℚ → Matrix (Fin ns) (Fin ns) ℚ)
    (rnd : ℤ → Fin ns → ℚ) (mn : Option (Fin ns → ℚ))
    (kxx : Matrix (Fin ns) (Fin ns) ℚ) (seed : ℤ) (y0 : Fin ns → ℚ) :
    Fin ns → ℚ :=
  let _ := y0
  let jit := addDiag eps kxx
  let lkxx := writeLower jit (chol (symLower jit))
  let z := rnd seed
  let y1 := lowerPart lkxx *ᵥ z
  match mn with
  | some m => fun i => y1 i + m i
  | none => y1

/-- Caller-visible results of `gpr_interpolate_mean`: the predicted values
`yp`, the optional posterior covariance `var_yp` (computed only when the
caller passed a non-null buffer), and the hyperparameter vector `p`
(refined in place when `is_opt` is set). -/
structure InterpMeanOut (np : ℕ) (P : Type) where
  yp : Fin np → ℚ
  var_yp : Option (Matrix (Fin np) (Fin np) ℚ)
  p : P

/-- Embedding of `gpr_interpolate_mean(xp, yp, yp_mn, np, x, y, y_mn, ns, dim, p, npar,
var_yp, is_opt)` of `lib_gpr.c`.  `Pt` is the (abstract) point type covering
`dim` coordinates, `P` the abstract hyperparameter vector; `kernelEval` models
the external `get_krn_se_ard` (result read column-major: the matrix indexed
`(second set, first set)`), `opt` the external `get_hyper_param_ard`.
The body: `dcopy` copies `y` into `y_res` and `daxpy` with `ALPHA = -1.0`
subtracts `y_mn`; optional optimizer call on `(p, x, y_res)`; build `krxx`;
`get_gpr_weights` into freshly allocated `wt`, `lkrxx`; build `krpx`;
`gpr_predict` into `yp`; then `daxpy` — with `ALPHA` still `-1.0` — combines
`yp_mn` into `yp`; when `var_yp` is non-null, build `krpp` and call
`get_var_mat_chd`. -/
def gpr_interpolate_mean {np ns : ℕ} (Pt P : Type)
    (kernelEval : (a b : ℕ) → (Fin a → Pt) → (Fin b → Pt) → P →
      Matrix (Fin b) (Fin a) ℚ)
    (opt : P → (Fin ns → Pt) → (Fin ns → ℚ) → P)
    (chol : Matrix (Fin ns) (Fin ns) ℚ → Matrix (Fin ns) (Fin ns) ℚ)
    (dim : ℕ) (xp : Fin np → Pt) (x : Fin ns → Pt) (y y_mn : Fin ns → ℚ)
    (yp_mn : Fin np → ℚ) (p : P) (is_opt : Bool) (withVar : Bool) :
    InterpMeanOut np P :=
  let y_res : Fin ns → ℚ := fun i => y i + (-1) * y_mn i
  let p1 := if is_opt then opt p x y_res else p
  let krxx := kernelEval ns ns x x p1
  let ws := get_gpr_weights chol dim ⟨0, 0, krxx, y_res⟩
  let krpx := kernelEval np ns xp x p1
  let yp0 := (gpr_predict ⟨0, ws.wt, krpx⟩).yp
  let yp1 : Fin np → ℚ := fun i => yp0 i + (-1) * yp_mn i
  let var := if withVar then
      some (get_var_mat_chd ⟨0, kernelEval np np xp xp p1, krpx, ws.krn_chd⟩).var
    else none
  ⟨yp1, var, p1⟩

/-- Concrete `1 × 1` query-query kernel `[[2]]` used to instantiate theorems
at a small input. -/
def cKrnpp : Matrix (Fin 1) (Fin 1) ℚ := Matrix.of ![![2]]

/-- Concrete `1 × 1` cross kernel `[[3]]`. -/
def cKrnp : Matrix (Fin 1) (Fin 1) ℚ := Matrix.of ![![3]]

/-- Concrete `1 × 1` training kernel `[[1 − eps]]`, whose jittered form is the
identity. -/
def cKrn : Matrix (Fin 1) (Fin 1) ℚ := Matrix.of ![![1 - eps]]

/-! ### Helper lemmas -/

lemma addDiag_eq {n : ℕ} (e : ℚ) (A : Matrix (Fin n) (Fin n) ℚ) :
    addDiag e A = A + e • (1 : Matrix (Fin n) (Fin n) ℚ) := by
  ext i j
  simp only [addDiag, Matrix.of_apply, Matrix.add_apply, Matrix.smul_apply,
    Matrix.one_apply, smul_eq_mul]
  by_cases h : i = j <;> simp [h]

lemma addDiag_transpose {n : ℕ} (e : ℚ) (A : Matrix (Fin n) (Fin n) ℚ) :
    (addDiag e A)ᵀ = addDiag e Aᵀ := by
  ext i j
  simp only [addDiag, Matrix.transpose_apply, Matrix.of_apply]
  by_cases h : i = j
  · simp [h]
  · simp [h, Ne.symm h]

lemma symLower_eq_self {n : ℕ} {A : Matrix (Fin n) (Fin n) ℚ} (h : Aᵀ = A) :
    symLower A = A := by
  ext i j
  simp only [symLower, Matrix.of_apply]
  by_cases hij : (j : ℕ) ≤ (i : ℕ)
  · simp [hij]
  · simpa [hij] using (congrFun (congrFun h j) i).symm

lemma lowerPart_eq_self {n : ℕ} {L : Matrix (Fin n) (Fin n) ℚ}
    (h : ∀ i j : Fin n, (i : ℕ) < (j : ℕ) → L i j = 0) :
    lowerPart L = L := by
  ext i j
  simp only [lowerPart, Matrix.of_apply]
  by_cases hij : (j : ℕ) ≤ (i : ℕ)
  · simp [hij]
  · simp [hij, h i j (by omega)]

lemma lowerPart_writeLower {n : ℕ} (A B : Matrix (Fin n) (Fin n) ℚ) :
    lowerPart (writeLower A B) = lowerPart B := by
  ext i j
  simp only [lowerPart, writeLower, Matrix.of_apply]
  by_cases hij : (j : ℕ) ≤ (i : ℕ) <;> simp [hij]

lemma linSolve_mulVec {n : ℕ} {A : Matrix (Fin n) (Fin n) ℚ}
    (hdet : A.det ≠ 0) (b : Fin n → ℚ) : A *ᵥ linSolve A b = b := by
  unfold linSolve
  rw [Matrix.mulVec_smul, Matrix.mulVec_cramer, smul_smul,
    inv_mul_cancel₀ hdet, one_smul]

lemma linSolve_eq_inv_mulVec {n : ℕ} {A : Matrix (Fin n) (Fin n) ℚ}
    (hdet : A.det ≠ 0) (b : Fin n → ℚ) : linSolve A b = A⁻¹ *ᵥ b := by
  have h1 : A⁻¹ *ᵥ (A *ᵥ linSolve A b) = A⁻¹ *ᵥ b := by
    rw [linSolve_mulVec hdet]
  rwa [Matrix.mulVec_mulVec, Matrix.nonsing_inv_mul A (isUnit_iff_ne_zero.mpr hdet),
    Matrix.one_mulVec] at h1

lemma linSolveMat_eq_inv_mul {n m : ℕ} {A : Matrix (Fin n) (Fin n) ℚ}
    (hdet : A.det ≠ 0) (B : Matrix (Fin n) (Fin m) ℚ) :
    linSolveMat A B = A⁻¹ * B := by
  ext i c
  rw [linSolveMat, Matrix.of_apply, linSolve_eq_inv_mulVec hdet]
  simp [Matrix.mulVec, Matrix.mul_apply, Matrix.dotProduct]

lemma mirrorLower_syrkLT {n m : ℕ} (V : Matrix (Fin n) (Fin m) ℚ)
    (C : Matrix (Fin m) (Fin m) ℚ)
    (hsym : (C - Vᵀ * V)ᵀ = C - Vᵀ * V) :
    mirrorLower (syrkLT V C) = C - Vᵀ * V := by
  ext r c
  simp only [mirrorLower, syrkLT, Matrix.of_apply]
  by_cases hrc : (r : ℕ) < (c : ℕ)
  · have hle : (r : ℕ) ≤ (c : ℕ) := le_of_lt hrc
    simp only [hrc, if_true, hle, if_pos]
    have := congrFun (congrFun hsym c) r
    simp only [Matrix.transpose_apply] at this
    rw [show C c r - ∑ k, V k c * V k r = (C - Vᵀ * V) c r by
      simp [Matrix.sub_apply, Matrix.mul_apply, Matrix.transpose_apply]]
    rw [this]
  · have hle : (c : ℕ) ≤ (r : ℕ) := by omega
    simp only [hrc, if_false, hle, if_pos]
    simp [Matrix.sub_apply, Matrix.mul_apply, Matrix.transpose_apply]

lemma addDiag_mulVec {n : ℕ} (e : ℚ) (A : Matrix (Fin n) (Fin n) ℚ)
    (x : Fin n → ℚ) : addDiag e A *ᵥ x = A *ᵥ x + e • x := by
  rw [addDiag_eq, Matrix.add_mulVec, Matrix.smul_mulVec_assoc, Matrix.one_mulVec]

lemma dotProduct_self_pos {n : ℕ} {x : Fin n → ℚ} (hx : x ≠ 0) :
    0 < x ⬝ᵥ x := by
  obtain ⟨i, hi⟩ := Function.ne_iff.mp hx
  have hi0 : x i ≠ 0 := by simpa using hi
  unfold Matrix.dotProduct
  apply Finset.sum_pos' (fun j _ => mul_self_nonneg (x j))
  exact ⟨i, Finset.mem_univ i, mul_self_pos.mpr hi0⟩

lemma posDefQ_addDiag {n : ℕ} {A : Matrix (Fin n) (Fin n) ℚ}
    (hA : PosDefQ A) : PosDefQ (addDiag eps A) := by
  refine ⟨by rw [addDiag_transpose, hA.1], fun x hx => ?_⟩
  rw [addDiag_mulVec, Matrix.dotProduct_add, Matrix.dotProduct_smul, smul_eq_mul]
  have h1 := hA.2 x hx
  have h2 : 0 < eps * (x ⬝ᵥ x) :=
    mul_pos (by norm_num [eps]) (dotProduct_self_pos hx)
  linarith

lemma posDefQ_det_ne_zero {n : ℕ} {A : Matrix (Fin n) (Fin n) ℚ}
    (hA : PosDefQ A) : A.det ≠ 0 := by
  intro hdet
  obtain ⟨v, hv, hAv⟩ := Matrix.exists_mulVec_eq_zero_iff.mpr hdet
  have := hA.2 v hv
  rw [hAv, Matrix.dotProduct_zero] at this
  exact lt_irrefl 0 this

lemma posDefQ_one {n : ℕ} : PosDefQ (1 : Matrix (Fin n) (Fin n) ℚ) := by
  refine ⟨Matrix.transpose_one, fun x hx => ?_⟩
  rw [Matrix.one_mulVec]
  exact dotProduct_self_pos hx

/-! ### Claim theorems -/

/-- Claim C4: for every symmetric positive-definite `krn` and every `y`,
`get_gpr_weights` works on a jittered copy `krn + eps·I` of `krn` (jitter
added to the `ns` diagonal entries exactly once), the returned weights solve
`(krn + eps·I) · wt = y` exactly, and the `krn` and `y` buffers are left
unchanged. -/
theorem get_gpr_weights_solves {ns : ℕ}
    (chol : Matrix (Fin ns) (Fin ns) ℚ → Matrix (Fin ns) (Fin ns) ℚ)
    (dim : ℕ) (s : WeightsSt ns) (hpd : PosDefQ s.krn) :
    (s.krn + eps • (1 : Matrix (Fin ns) (Fin ns) ℚ)) *ᵥ
        (get_gpr_weights chol dim s).wt = s.y
    ∧ (get_gpr_weights chol dim s).krn_chd
        = writeLower (s.krn + eps • (1 : Matrix (Fin ns) (Fin ns) ℚ))
            (chol (s.krn + eps • (1 : Matrix (Fin ns) (Fin ns) ℚ)))
    ∧ (get_gpr_weights chol dim s).krn = s.krn
    ∧ (get_gpr_weights chol dim s).y = s.y := by
  have hpd2 := posDefQ_addDiag hpd
  have hsl : symLower (addDiag eps s.krn) = addDiag eps s.krn :=
    symLower_eq_self hpd2.1
  have hdet := posDefQ_det_ne_zero hpd2
  refine ⟨?_, ?_, rfl, rfl⟩
  · show (s.krn + eps • (1 : Matrix (Fin ns) (Fin ns) ℚ)) *ᵥ
        linSolve (symLower (addDiag eps s.krn)) s.y = s.y
    rw [hsl, ← addDiag_eq]
    exact linSolve_mulVec hdet s.y
  · show writeLower (addDiag eps s.krn) (chol (symLower (addDiag eps s.krn))) = _
    rw [hsl, addDiag_eq]

/-- Witness for C4 at `ns = 1`, `krn = I`, `y = [3]`. -/
theorem get_gpr_weights_solves_witness :
    PosDefQ ((⟨0, 0, 1, ![3]⟩ : WeightsSt 1).krn)
    ∧ ((⟨0, 0, 1, ![3]⟩ : WeightsSt 1).krn + eps • (1 : Matrix (Fin 1) (Fin 1) ℚ)) *ᵥ
        (get_gpr_weights id 1 ⟨0, 0, 1, ![3]⟩).wt = (⟨0, 0, 1, ![3]⟩ : WeightsSt 1).y := by
  have h : PosDefQ ((⟨0, 0, 1, ![3]⟩ : WeightsSt 1).krn) := posDefQ_one
  exact ⟨h, (get_gpr_weights_solves id 1 _ h).1⟩

/-- Claim C9: running `get_gpr_weights` a second time on the very buffers
left by a first run (same `krn`, `y`) yields the same weights and the same
factor — the jitter is added to a fresh copy each call, never accumulated. -/
theorem get_gpr_weights_idempotent {ns : ℕ}
    (chol : Matrix (Fin ns) (Fin ns) ℚ → Matrix (Fin ns) (Fin ns) ℚ)
    (dim : ℕ) (s : WeightsSt ns) :
    (get_gpr_weights chol dim (get_gpr_weights chol dim s)).wt
        = (get_gpr_weights chol dim s).wt
    ∧ (get_gpr_weights chol dim (get_gpr_weights chol dim s)).krn_chd
        = (get_gpr_weights chol dim s).krn_chd :=
  ⟨rfl, rfl⟩

/-- Claim C10: the `dim` argument of `get_gpr_weights` is never read, so the
whole output state is independent of it. -/
theorem get_gpr_weights_dim_independent {ns : ℕ}
    (chol : Matrix (Fin ns) (Fin ns) ℚ → Matrix (Fin ns) (Fin ns) ℚ)
    (d1 d2 : ℕ) (s : WeightsSt ns) :
    get_gpr_weights chol d1 s = get_gpr_weights chol d2 s :=
  rfl

/-- Counterexample to claim C2: a `get_var_mat` call whose `krn` argument does
not hold its input values afterwards (the jitter is added to `krn` in place
and `dposv` overwrites it with the factor). -/
theorem get_var_mat_mutates_krn :
    (get_var_mat (id : Matrix (Fin 1) (Fin 1) ℚ → Matrix (Fin 1) (Fin 1) ℚ)
        (⟨0, 0, 0, 1⟩ : VarSt 1 1)).krn ≠
      (⟨0, 0, 0, 1⟩ : VarSt 1 1).krn := by
  intro h
  have h0 := congrFun (congrFun h 0) 0
  simp [get_var_mat, writeLower, addDiag, symLower, eps, Matrix.one_apply] at h0

/-- Claim C2 as amended: `get_gpr_weights`, `gpr_predict` and
`get_var_mat_chd` leave every argument other than their designated outputs
unchanged, but the full-solve `get_var_mat` overwrites its `krn` argument with
the in-place-jittered, factorized matrix, so repeated calls on the same `krn`
buffer do not see the original kernel again. -/
theorem frame_properties {np ns : ℕ}
    (chol : Matrix (Fin ns) (Fin ns) ℚ → Matrix (Fin ns) (Fin ns) ℚ)
    (dim : ℕ) (s : WeightsSt ns) (t : PredictSt np ns) (u : VarChdSt np ns)
    (v : VarSt np ns) :
    ((get_gpr_weights chol dim s).krn = s.krn
      ∧ (get_gpr_weights chol dim s).y = s.y)
    ∧ ((gpr_predict t).wt = t.wt ∧ (gpr_predict t).krnp = t.krnp)
    ∧ ((get_var_mat_chd u).krnpp = u.krnpp
      ∧ (get_var_mat_chd u).krnp = u.krnp
      ∧ (get_var_mat_chd u).krn_chd = u.krn_chd)
    ∧ ((get_var_mat chol v).krnpp = v.krnpp
      ∧ (get_var_mat chol v).krnp = v.krnp
      ∧ (get_var_mat chol v).krn
          = writeLower (addDiag eps v.krn) (chol (symLower (addDiag eps v.krn)))) :=
  ⟨⟨rfl, rfl⟩, ⟨rfl, rfl⟩, ⟨rfl, rfl, rfl⟩, ⟨rfl, rfl, rfl⟩⟩

/-- Claim C6: the output of `get_var_mat_chd` is exactly symmetric — the
triangle computed by the rank-k update is explicitly mirrored into the
other one. -/
theorem get_var_mat_chd_symmetric {np ns : ℕ} (s : VarChdSt np ns)
    (i j : Fin np) :
    (get_var_mat_chd s).var i j = (get_var_mat_chd s).var j i := by
  simp only [get_var_mat_chd, mirrorLower, Matrix.of_apply]
  rcases Nat.lt_trichotomy (i : ℕ) (j : ℕ) with h | h | h
  · rw [if_pos h, if_neg (by omega)]
  · have hij : i = j := Fin.ext h
    subst hij
    rfl
  · rw [if_neg (by omega), if_pos h]

/-- Claim C7: when the jittered matrix seen by `dposv` is positive definite
the factorization reports `info = 0` and `get_gpr_weights` returns normally
with its completed state; when it is not, the `assert(info == 0)` aborts the
call at once (no retry). -/
theorem get_gpr_weights_fatal {ns : ℕ}
    (chol : Matrix (Fin ns) (Fin ns) ℚ → Matrix (Fin ns) (Fin ns) ℚ)
    (dim : ℕ) (s : WeightsSt ns) :
    (PosDefQ (addDiag eps s.krn) →
      get_gpr_weights_run chol dim s = some (get_gpr_weights chol dim s))
    ∧ (¬ PosDefQ (symLower (addDiag eps s.krn)) →
      get_gpr_weights_run chol dim s = none) := by
  constructor
  · intro h
    have hs : symLower (addDiag eps s.krn) = addDiag eps s.krn :=
      symLower_eq_self h.1
    unfold get_gpr_weights_run
    rw [hs, if_pos h]
  · intro h
    unfold get_gpr_weights_run
    rw [if_neg h]

/-- Witness for C7 at `ns = 1`, `krn = I` (positive definite after jitter). -/
theorem get_gpr_weights_fatal_witness :
    PosDefQ (addDiag eps ((⟨0, 0, 1, ![3]⟩ : WeightsSt 1).krn))
    ∧ get_gpr_weights_run id 5 ⟨0, 0, 1, ![3]⟩
        = some (get_gpr_weights id 5 ⟨0, 0, 1, ![3]⟩) := by
  have h : PosDefQ (addDiag eps ((⟨0, 0, 1, ![3]⟩ : WeightsSt 1).krn)) :=
    posDefQ_addDiag posDefQ_one
  exact ⟨h, (get_gpr_weights_fatal id 5 _).1 h⟩

/-- Claim C3: when the jittered training kernel `krn + eps·I` has an
invertible lower Cholesky factor `L` (`L·Lᵀ = krn + eps·I`) and the
query-query kernel is symmetric, the full-solve `get_var_mat` and the
factor-based `get_var_mat_chd` produce the same posterior covariance
`krnpp − krnpᵀ·(krn + eps·I)⁻¹·krnp` in exact arithmetic. -/
theorem get_var_mat_chd_agrees_get_var_mat {np ns : ℕ}
    (chol : Matrix (Fin ns) (Fin ns) ℚ → Matrix (Fin ns) (Fin ns) ℚ)
    (v0 v1 : Matrix (Fin np) (Fin np) ℚ)
    (krnpp : Matrix (Fin np) (Fin np) ℚ) (krnp : Matrix (Fin ns) (Fin np) ℚ)
    (krn L : Matrix (Fin ns) (Fin ns) ℚ)
    (hpp : krnppᵀ = krnpp)
    (hfact : L * Lᵀ = krn + eps • (1 : Matrix (Fin ns) (Fin ns) ℚ))
    (hlow : ∀ i j : Fin ns, (i : ℕ) < (j : ℕ) → L i j = 0)
    (hdet : L.det ≠ 0) :
    (get_var_mat_chd ⟨v0, krnpp, krnp, L⟩).var
        = (get_var_mat chol ⟨v1, krnpp, krnp, krn⟩).var
    ∧ (get_var_mat chol ⟨v1, krnpp, krnp, krn⟩).var
        = krnpp - krnpᵀ *
            ((krn + eps • (1 : Matrix (Fin ns) (Fin ns) ℚ))⁻¹ * krnp) := by
  have hjit : addDiag eps krn = krn + eps • (1 : Matrix (Fin ns) (Fin ns) ℚ) :=
    addDiag_eq eps krn
  have hfact2 : L * Lᵀ = addDiag eps krn := by rw [hjit]; exact hfact
  have hsymjit : (addDiag eps krn)ᵀ = addDiag eps krn := by
    rw [← hfact2, Matrix.transpose_mul, Matrix.transpose_transpose]
  have hdetjit : (addDiag eps krn).det ≠ 0 := by
    rw [← hfact2, Matrix.det_mul, Matrix.det_transpose]
    exact mul_ne_zero hdet hdet
  have hfull : (get_var_mat chol ⟨v1, krnpp, krnp, krn⟩).var
      = krnpp - krnpᵀ * ((addDiag eps krn)⁻¹ * krnp) := by
    show krnpp - krnpᵀ * linSolveMat (symLower (addDiag eps krn)) krnp = _
    rw [symLower_eq_self hsymjit, linSolveMat_eq_inv_mul hdetjit]
  have hVc : linSolveMat (lowerPart L) krnp = L⁻¹ * krnp := by
    rw [lowerPart_eq_self hlow]
    exact linSolveMat_eq_inv_mul hdet krnp
  have hkey : (L⁻¹ * krnp)ᵀ * (L⁻¹ * krnp)
      = krnpᵀ * ((addDiag eps krn)⁻¹ * krnp) := by
    rw [Matrix.transpose_mul, Matrix.transpose_nonsing_inv,
      Matrix.mul_assoc (krnpᵀ) (Lᵀ⁻¹) (L⁻¹ * krnp),
      ← Matrix.mul_assoc (Lᵀ⁻¹) (L⁻¹) krnp, ← Matrix.mul_inv_rev, hfact2]
  have hsymS : (krnpp - (L⁻¹ * krnp)ᵀ * (L⁻¹ * krnp))ᵀ
      = krnpp - (L⁻¹ * krnp)ᵀ * (L⁻¹ * krnp) := by
    rw [Matrix.transpose_sub, hpp, Matrix.transpose_mul,
      Matrix.transpose_transpose]
  have hchd : (get_var_mat_chd ⟨v0, krnpp, krnp, L⟩).var
      = krnpp - (L⁻¹ * krnp)ᵀ * (L⁻¹ * krnp) := by
    show mirrorLower (syrkLT (linSolveMat (lowerPart L) krnp) krnpp) = _
    rw [hVc]
    exact mirrorLower_syrkLT _ _ hsymS
  constructor
  · rw [hchd, hfull, hkey]
  · rw [hfull, hjit]

/-- Witness for C3 at `np = ns = 1`, `krn = [[1 − eps]]`, `L = I`,
`krnpp = [[2]]`, `krnp = [[3]]`. -/
theorem get_var_mat_chd_agrees_get_var_mat_witness :
    (cKrnppᵀ = cKrnpp)
    ∧ ((1 : Matrix (Fin 1) (Fin 1) ℚ) * (1 : Matrix (Fin 1) (Fin 1) ℚ)ᵀ
        = cKrn + eps • (1 : Matrix (Fin 1) (Fin 1) ℚ))
    ∧ (∀ i j : Fin 1, (i : ℕ) < (j : ℕ) →
        (1 : Matrix (Fin 1) (Fin 1) ℚ) i j = 0)
    ∧ ((1 : Matrix (Fin 1) (Fin 1) ℚ).det ≠ 0)
    ∧ (get_var_mat_chd ⟨0, cKrnpp, cKrnp, 1⟩).var
        = (get_var_mat id ⟨0, cKrnpp, cKrnp, cKrn⟩).var := by
  have h1 : cKrnppᵀ = cKrnpp := by
    ext i j
    fin_cases i
    fin_cases j
    rfl
  have h2 : (1 : Matrix (Fin 1) (Fin 1) ℚ) * (1 : Matrix (Fin 1) (Fin 1) ℚ)ᵀ
      = cKrn + eps • (1 : Matrix (Fin 1) (Fin 1) ℚ) := by
    ext i j
    fin_cases i
    fin_cases j
    simp [cKrn, Matrix.one_apply, eps]
  have h3 : ∀ i j : Fin 1, (i : ℕ) < (j : ℕ) →
      (1 : Matrix (Fin 1) (Fin 1) ℚ) i j = 0 := by
    intro i j h
    have := j.isLt
    omega
  have h4 : (1 : Matrix (Fin 1) (Fin 1) ℚ).det ≠ 0 := by
    simp
  exact ⟨h1, h2, h3, h4,
    (get_var_mat_chd_agrees_get_var_mat id 0 0 cKrnpp cKrnp cKrn 1
      h1 h2 h3 h4).1⟩

/-- Claim C8: `sample_gp` is deterministic — its output is a function of the
mean, covariance and seed only (the prior content of the output buffer is
never read) — and equals `L·z` (plus the mean elementwise when supplied),
where `z` is the seed-determined standard-normal draw and `L` the lower
Cholesky factor of the jittered covariance produced by `dpotrf`. -/
theorem sample_gp_deterministic {ns : ℕ}
    (chol : Matrix (Fin ns) (Fin ns) ℚ → Matrix (Fin ns) (Fin ns) ℚ)
    (rnd : ℤ → Fin ns → ℚ) (kxx L : Matrix (Fin ns) (Fin ns) ℚ)
    (mn : Fin ns → ℚ) (seed : ℤ)
    (hsym : kxxᵀ = kxx)
    (hc : chol (addDiag eps kxx) = L)
    (hlow : ∀ i j : Fin ns, (i : ℕ) < (j : ℕ) → L i j = 0)
    (hfact : L * Lᵀ = kxx + eps • (1 : Matrix (Fin ns) (Fin ns) ℚ)) :
    (∀ (m : Option (Fin ns → ℚ)) (y0 y1 : Fin ns → ℚ),
      sample_gp chol rnd m kxx seed y0 = sample_gp chol rnd m kxx seed y1)
    ∧ sample_gp chol rnd none kxx seed 0 = L *ᵥ rnd seed
    ∧ sample_gp chol rnd (some mn) kxx seed 0
        = fun i => (L *ᵥ rnd seed) i + mn i := by
  have _hf := hfact
  have hsymjit : (addDiag eps kxx)ᵀ = addDiag eps kxx := by
    rw [addDiag_transpose, hsym]
  have hl : lowerPart (writeLower (addDiag eps kxx)
      (chol (symLower (addDiag eps kxx)))) = L := by
    rw [lowerPart_writeLower, symLower_eq_self hsymjit, hc,
      lowerPart_eq_self hlow]
  refine ⟨fun m y0 y1 => rfl, ?_, ?_⟩
  · show lowerPart (writeLower (addDiag eps kxx)
      (chol (symLower (addDiag eps kxx)))) *ᵥ rnd seed = _
    rw [hl]
  · show (fun i => (lowerPart (writeLower (addDiag eps kxx)
      (chol (symLower (addDiag eps kxx)))) *ᵥ rnd seed) i + mn i) = _
    rw [hl]

/-- Witness for C8 at `ns = 1`, `kxx = [[1 − eps]]` (jittered to the
identity), `L = I`, draw `z = [2]`, mean `[5]`, seed `0`. -/
theorem sample_gp_deterministic_witness :
    (cKrnᵀ = cKrn)
    ∧ ((fun _ : Matrix (Fin 1) (Fin 1) ℚ => (1 : Matrix (Fin 1) (Fin 1) ℚ))
        (addDiag eps cKrn) = 1)
    ∧ (∀ i j : Fin 1, (i : ℕ) < (j : ℕ) →
        (1 : Matrix (Fin 1) (Fin 1) ℚ) i j = 0)
    ∧ ((1 : Matrix (Fin 1) (Fin 1) ℚ) * (1 : Matrix (Fin 1) (Fin 1) ℚ)ᵀ
        = cKrn + eps • (1 : Matrix (Fin 1) (Fin 1) ℚ))
    ∧ sample_gp (fun _ => 1) (fun _ => ![2]) none cKrn 0 0
        = (1 : Matrix (Fin 1) (Fin 1) ℚ) *ᵥ (fun _ : ℤ => ![(2 : ℚ)]) 0 := by
  have h1 : cKrnᵀ = cKrn := by
    ext i j
    fin_cases i
    fin_cases j
    rfl
  have h2 : (fun _ : Matrix (Fin 1) (Fin 1) ℚ => (1 : Matrix (Fin 1) (Fin 1) ℚ))
      (addDiag eps cKrn) = 1 := rfl
  have h3 : ∀ i j : Fin 1, (i : ℕ) < (j : ℕ) →
      (1 : Matrix (Fin 1) (Fin 1) ℚ) i j = 0 := by
    intro i j h
    have := j.isLt
    omega
  have h4 : (1 : Matrix (Fin 1) (Fin 1) ℚ) * (1 : Matrix (Fin 1) (Fin 1) ℚ)ᵀ
      = cKrn + eps • (1 : Matrix (Fin 1) (Fin 1) ℚ) := by
    ext i j
    fin_cases i
    fin_cases j
    simp [cKrn, Matrix.one_apply, eps]
  exact ⟨h1, h2, h3, h4,
    (sample_gp_deterministic (fun _ => 1) (fun _ => ![2]) cKrn 1 ![5] 0
      h1 h2 h3 h4).2.1⟩

/-- Claim C5: `get_log_likelihood` returns
`score = −½·(yᵗ·wt) − ½·log_det − ½·ns·log(2·PI)` with
`log_det = Σ 2·log(diag)`, reports the diagnostic terms as
`[−½·yᵗwt, −log_det, −½·ns·log(2·PI)]` (the complexity term not halved), and
the reported terms recombine as `ret₀ + ½·ret₁ + ret₂ = score`. -/
theorem get_log_likelihood_terms {ns : ℕ} (wt y : Fin ns → ℝ)
    (krn_chd : Matrix (Fin ns) (Fin ns) ℝ) :
    (get_log_likelihood wt y krn_chd).1
      = -0.5 * (∑ i, y i * wt i) - 0.5 * (∑ i, 2 * Real.log (krn_chd i i))
        - 0.5 * (ns : ℝ) * Real.log (2 * PI)
    ∧ (get_log_likelihood wt y krn_chd).2 0 = -0.5 * (∑ i, y i * wt i)
    ∧ (get_log_likelihood wt y krn_chd).2 1
        = -(∑ i, 2 * Real.log (krn_chd i i))
    ∧ (get_log_likelihood wt y krn_chd).2 2
        = -0.5 * (ns : ℝ) * Real.log (2 * PI)
    ∧ (get_log_likelihood wt y krn_chd).2 0
        + 0.5 * (get_log_likelihood wt y krn_chd).2 1
        + (get_log_likelihood wt y krn_chd).2 2
        = (get_log_likelihood wt y krn_chd).1 := by
  refine ⟨rfl, rfl, rfl, rfl, ?_⟩
  show -0.5 * (∑ i, y i * wt i) + 0.5 * -(∑ i, 2 * Real.log (krn_chd i i))
      + -0.5 * (ns : ℝ) * Real.log (2 * PI)
    = -0.5 * (∑ i, y i * wt i) - 0.5 * (∑ i, 2 * Real.log (krn_chd i i))
      - 0.5 * (ns : ℝ) * Real.log (2 * PI)
  ring

/-- Claim C1 fails on the code: in `gpr_interpolate_mean` the final `daxpy`
still has `ALPHA = -1.0`, so the query-side prior mean is subtracted, not
added back.  At `ns = np = 1`, constant kernel `1`, `y = y_mn = [1]`
(so the weights are `0`), `yp_mn = [1]`: the code returns `yp = [-1]`
(`= krpxᵀ·wt − yp_mn`), whereas `krpxᵀ·wt + yp_mn = [1]`. -/
theorem gpr_interpolate_mean_subtracts_query_mean :
    (gpr_interpolate_mean Unit Unit
      (fun _ _ _ _ _ => Matrix.of fun _ _ => 1)
      (fun p _ _ => p) id 1 (fun _ => ()) (fun _ => ())
      ![1] ![1] ![1] () false false).yp = ![(-1 : ℚ)]
    ∧ (gpr_interpolate_mean Unit Unit
      (fun _ _ _ _ _ => Matrix.of fun _ _ => 1)
      (fun p _ _ => p) id 1 (fun _ => ()) (fun _ => ())
      ![1] ![1] ![1] () false false).yp ≠ ![(1 : ℚ)] := by
  have h : (gpr_interpolate_mean Unit Unit
      (fun _ _ _ _ _ => Matrix.of fun _ _ => 1)
      (fun p _ _ => p) id 1 (fun _ => ()) (fun _ => ())
      ![1] ![1] ![1] () false false).yp = ![(-1 : ℚ)] := by
    funext i
    fin_cases i
    simp [gpr_interpolate_mean, gpr_predict, get_gpr_weights, linSolve,
      Matrix.cramer_apply, Matrix.det_fin_one, Matrix.updateColumn_apply,
      Matrix.mulVec, Matrix.dotProduct, symLower, addDiag, eps]
  refine ⟨h, ?_⟩
  rw [h]
  intro heq
  have h0 := congrFun heq 0
  norm_num at h0

end LibGpr
